import Mathlib

/-!
Shallow embedding of the transcript reassembly and incremental-summary
pipeline of the meeting-minutes frontend (the `TranscriptProvider` React
context).  Machine numbers (`Date.now()` timestamps, sequence ids,
chunk start times) are modelled as `Nat`/`Int`; the JS `Map` backing the
fragment buffer is modelled as an association list in insertion order
(JS `Map` iteration order is insertion order, which the classification
loop relies on).  Asynchronous continuations (the `.then` callbacks on
the summary-service calls) are modelled as explicit state-transition
functions applied when the corresponding response settles.
-/

namespace MeetingMinutes

open scoped List

/-- One transcript fragment as built by the main listener
(`const newTranscript: Transcript = {...}`).  The JS `id` field is the
string `Date.now() + "-" + transcriptCounter`; the buffering code
recovers the arrival timestamp as `parseInt(id.split('-')[0])`, so the
id is modelled by its two numeric components (`idTime`, `idCounter`).
`chunk_start_time` is a number in every fragment the producer emits;
the comparators read it through `|| 0`, the identity on numbers. -/
structure Transcript where
  idTime : Nat
  idCounter : Nat
  text : String
  timestamp : String
  sequence_id : Nat
  chunk_start_time : Int
  is_partial : Bool
deriving DecidableEq, Repr

/-- The payload of one `transcript-update` event from the producer. -/
structure TranscriptUpdate where
  text : String
  timestamp : String
  sequence_id : Nat
  chunk_start_time : Int
  is_partial : Bool
deriving DecidableEq, Repr

/-- The closure state of the buffering `useEffect`:
`transcriptBuffer : Map<number, Transcript>` (insertion-ordered
association list) and `lastProcessedSequence` (starts at 0). -/
structure BufferState where
  buffer : List (Nat × Transcript)
  lastProcessedSequence : Nat
deriving DecidableEq, Repr

/-- `transcriptBuffer.has(k)`. -/
def bufHas (buf : List (Nat × Transcript)) (k : Nat) : Bool :=
  buf.any (fun p => p.1 == k)

/-- `transcriptBuffer.get(k)`. -/
def bufGet (buf : List (Nat × Transcript)) (k : Nat) : Option Transcript :=
  (buf.find? (fun p => p.1 == k)).map Prod.snd

/-- `transcriptBuffer.delete(k)`. -/
def bufDelete (buf : List (Nat × Transcript)) (k : Nat) : List (Nat × Transcript) :=
  buf.filter (fun p => p.1 != k)

/-- The duplicate check and insertion of the main listener
(`if (transcriptBuffer.has(update.sequence_id)) return;` followed by
`transcriptBuffer.set(update.sequence_id, newTranscript)`), with
`now = Date.now()` at arrival and the running `transcriptCounter`. -/
def addFragment (now : Nat) (u : TranscriptUpdate) (st : BufferState) (counter : Nat) :
    BufferState × Nat :=
  if bufHas st.buffer u.sequence_id then (st, counter)
  else
    let t : Transcript :=
      { idTime := now, idCounter := counter, text := u.text, timestamp := u.timestamp,
        sequence_id := u.sequence_id, chunk_start_time := u.chunk_start_time,
        is_partial := u.is_partial }
    ({ st with buffer := st.buffer ++ [(u.sequence_id, t)] }, counter + 1)

theorem bufDelete_length_lt {buf : List (Nat × Transcript)} {k : Nat}
    (h : bufHas buf k = true) : (bufDelete buf k).length < buf.length := by
  rw [bufDelete, List.length_filter_lt_length_iff_exists]
  simp only [bufHas, List.any_eq_true, beq_iff_eq] at h
  obtain ⟨p, hp, hpk⟩ := h
  exact ⟨p, hp, by simp [hpk]⟩

/-- The `while (transcriptBuffer.has(nextSequence))` loop of
`processBufferedTranscripts`: starting at `lastProcessedSequence + 1`,
repeatedly take the fragment at the next sequence id, delete it from the
buffer and advance `lastProcessedSequence`.  Returns the consumed
fragments (in sequence order), the remaining buffer, and the updated
`lastProcessedSequence`. -/
def contiguousRun (buf : List (Nat × Transcript)) (lastSeq : Nat) :
    List Transcript × List (Nat × Transcript) × Nat :=
  match h : bufGet buf (lastSeq + 1) with
  | none => ([], buf, lastSeq)
  | some t =>
    let buf' := bufDelete buf (lastSeq + 1)
    have hlt : buf'.length < buf.length := by
      apply bufDelete_length_lt
      simp only [bufGet, Option.map_eq_some'] at h
      obtain ⟨p, hp, _⟩ := h
      have hmem := List.mem_of_find?_eq_some hp
      have hpk := List.find?_some hp
      simp only [bufHas, List.any_eq_true]
      exact ⟨p, hmem, hpk⟩
    let r := contiguousRun buf' (lastSeq + 1)
    (t :: r.1, r.2.1, r.2.2)
termination_by buf.length

/-- Classification of the fragments left in the buffer after the
contiguous run (the `for (const [sequenceId, transcript] of
transcriptBuffer.entries())` loop), iterating in insertion order.
With `forceFlush` every fragment is taken as forced; otherwise the age
`now - parseInt(transcript.id.split('-')[0])` is compared against
`staleThreshold = 100` (strictly greater means stale) and
`recentThreshold = 0` (at least zero means recent); a fragment matching
neither branch stays in the buffer.  Returns
(stale, recent, forced, remaining buffer). -/
def classifyLoop (forceFlush : Bool) (now : Nat) :
    List (Nat × Transcript) →
    List Transcript × List Transcript × List Transcript × List (Nat × Transcript)
  | [] => ([], [], [], [])
  | (sid, t) :: rest =>
    let r := classifyLoop forceFlush now rest
    if forceFlush then (r.1, r.2.1, t :: r.2.2.1, r.2.2.2)
    else
      let transcriptAge : Int := (now : Int) - (t.idTime : Int)
      if transcriptAge > 100 then (t :: r.1, r.2.1, r.2.2.1, r.2.2.2)
      else if transcriptAge ≥ 0 then (r.1, t :: r.2.1, r.2.2.1, r.2.2.2)
      else (r.1, r.2.1, r.2.2.1, (sid, t) :: r.2.2.2)

/-- The sort comparator used throughout (`sortTranscripts` and the
`setTranscripts` updater): ascending by `chunk_start_time || 0`, ties
broken by `sequence_id || 0`. -/
def transcriptLE (a b : Transcript) : Bool :=
  a.chunk_start_time < b.chunk_start_time ||
    (a.chunk_start_time == b.chunk_start_time && a.sequence_id ≤ b.sequence_id)

/-- `transcripts.sort(comparator)` (JS `Array.prototype.sort` is a
stable sort; `mergeSort` is the stable functional counterpart). -/
def sortTranscripts (l : List Transcript) : List Transcript :=
  l.mergeSort transcriptLE

/-- Result of one `processBufferedTranscripts` pass over the buffer. -/
structure FlushResult where
  contiguous : List Transcript
  recent : List Transcript
  stale : List Transcript
  forced : List Transcript
  newBuffer : List (Nat × Transcript)
  newLastProcessedSequence : Nat
deriving DecidableEq, Repr

/-- The buffer-processing core of `processBufferedTranscripts
(forceFlush)`: the contiguous run, then the age/force classification of
whatever remains, then the per-group sorts. -/
def flushParts (forceFlush : Bool) (now : Nat) (st : BufferState) : FlushResult :=
  let c := contiguousRun st.buffer st.lastProcessedSequence
  let r := classifyLoop forceFlush now c.2.1
  { contiguous := c.1
    recent := sortTranscripts r.2.1
    stale := sortTranscripts r.1
    forced := sortTranscripts r.2.2.1
    newBuffer := r.2.2.2
    newLastProcessedSequence := c.2.2 }

/-- The flushed batch, concatenated in the fixed order of the source
(`[...sortedTranscripts, ...sortedRecentTranscripts,
...sortedStaleTranscripts, ...sortedForceFlushTranscripts]`), together
with the buffer state left behind. -/
def flush (forceFlush : Bool) (now : Nat) (st : BufferState) :
    List Transcript × BufferState :=
  let r := flushParts forceFlush now st
  (r.contiguous ++ r.recent ++ r.stale ++ r.forced,
   ⟨r.newBuffer, r.newLastProcessedSequence⟩)

/-- The `setTranscripts` updater of `processBufferedTranscripts`:
collect the `sequence_id`s already present, drop every batch fragment
whose id is already there, return `prev` unchanged when nothing unique
remains, otherwise append and re-sort by (chunk_start_time,
sequence_id).  (The JS code also filters out `undefined` sequence ids;
in this model every fragment carries a `sequence_id`, so that filter is
the identity.) -/
def mergeTranscripts (allNewTranscripts : List Transcript) (prev : List Transcript) :
    List Transcript :=
  let existingSequenceIds := prev.map (·.sequence_id)
  let uniqueNewTranscripts :=
    allNewTranscripts.filter (fun t => ! existingSequenceIds.contains t.sequence_id)
  if uniqueNewTranscripts.isEmpty then prev
  else sortTranscripts (prev ++ uniqueNewTranscripts)

/-- One full `processBufferedTranscripts` pass as it affects the
transcript list: flush the buffer and, when the batch is non-empty
(`if (allNewTranscripts.length > 0)`), run the `setTranscripts`
updater. -/
def processFlush (forceFlush : Bool) (now : Nat) (st : BufferState)
    (prev : List Transcript) : BufferState × List Transcript :=
  let r := flush forceFlush now st
  (r.2, if r.1.length > 0 then mergeTranscripts r.1 prev else prev)

/-- The manual `addTranscript` callback: duplicate detection compares
`text` and `timestamp` only, and the re-sort compares `sequence_id`
only.  The JS `id` field here is `update.sequence_id.toString()` when
the sequence id is truthy and `Date.now().toString()` otherwise; its
numeric value is recorded in `idTime` (it never re-enters the buffer,
so it is never aged). -/
def addTranscript (now : Nat) (update : TranscriptUpdate) (prev : List Transcript) :
    List Transcript :=
  let newTranscript : Transcript :=
    { idTime := if update.sequence_id ≠ 0 then update.sequence_id else now
      idCounter := 0
      text := update.text
      timestamp := update.timestamp
      sequence_id := update.sequence_id
      chunk_start_time := update.chunk_start_time
      is_partial := update.is_partial }
  if prev.any (fun t => t.text == update.text && t.timestamp == update.timestamp) then prev
  else (prev ++ [newTranscript]).mergeSort (fun a b => a.sequence_id ≤ b.sequence_id)

/-- Strict (chunkStartTime, sequenceId) order on fragments. -/
def transcriptLT (a b : Transcript) : Prop :=
  a.chunk_start_time < b.chunk_start_time ∨
    (a.chunk_start_time = b.chunk_start_time ∧ a.sequence_id < b.sequence_id)

instance : DecidableRel transcriptLT := fun a b => by
  unfold transcriptLT; infer_instance

/-- The TranscriptList invariant of the spec: strictly sorted by
(chunkStartTime, sequenceId) with unique sequence ids. -/
def TranscriptListInv (l : List Transcript) : Prop :=
  l.Pairwise transcriptLT ∧ (l.map (·.sequence_id)).Nodup

instance : DecidablePred TranscriptListInv := fun l => by
  unfold TranscriptListInv; infer_instance

/-- Well-formedness of the fragment buffer, maintained by the main
listener: keys are unique (the `has` check) and each entry is stored
under its own `sequence_id` (`transcriptBuffer.set(update.sequence_id,
newTranscript)` with `newTranscript.sequence_id = update.sequence_id`). -/
def BufferWF (st : BufferState) : Prop :=
  (st.buffer.map Prod.fst).Nodup ∧ ∀ p ∈ st.buffer, p.2.sequence_id = p.1

/- ### Session / summary layer -/

/-- One block of a structured summary section (`SummaryBlock`). -/
structure SummaryBlock where
  id : String
  type : String
  content : String
  color : String
deriving DecidableEq, Repr

/-- One named section of the summary (`SummarySection`). -/
structure SummarySection where
  title : String
  blocks : List SummaryBlock
deriving DecidableEq, Repr

/-- The structured response of `addChunk` (`SummaryResponse` in
summaryService.ts; `meeting_notes` is itself a named collection of
sections). -/
structure SummaryResponse where
  meeting_name : Option String
  people : SummarySection
  session_summary : SummarySection
  critical_deadlines : SummarySection
  key_items_decisions : SummarySection
  immediate_action_items : SummarySection
  next_steps : SummarySection
deriving DecidableEq, Repr

/-- An outgoing SummaryClient call issued by the pipeline. -/
inductive SummaryCall where
  | addChunk (meetingId : String) (text : String)
  | endSession (meetingId : String)
deriving DecidableEq, Repr

/-- The provider state the session/summary handlers read and write:
`currentMeetingIdRef`, `summaryStartedRef`, `summarySessionActiveRef`,
`pendingChunksRef`, `incrementalSummary`, `transcripts`, and the
buffering closure's `BufferState`. -/
structure PipelineState where
  currentMeetingId : Option String
  summaryStarted : Bool
  summarySessionActive : Bool
  pendingChunks : List String
  incrementalSummary : Option SummaryResponse
  transcripts : List Transcript
  bufferState : BufferState
deriving DecidableEq, Repr

/-- The summary-dispatch tail of `processBufferedTranscripts` for one
batch text: when no meeting id is set nothing happens; when the session
is not yet active the chunk is pushed onto `pendingChunksRef`;
otherwise an `addChunk(activeMeetingId, textChunk)` call is issued. -/
def dispatchChunk (textChunk : String) (st : PipelineState) :
    PipelineState × List SummaryCall :=
  match st.currentMeetingId with
  | none => (st, [])
  | some activeMeetingId =>
    if st.summarySessionActive then (st, [SummaryCall.addChunk activeMeetingId textChunk])
    else ({ st with pendingChunks := st.pendingChunks ++ [textChunk] }, [])

/-- The success continuation of `startIncrementalSummary` inside the
recording-started handler: mark the session active, and if chunks are
pending, join them with a single space, clear the queue and issue
exactly one backlog `addChunk` call.  `meetingId` is the id captured by
the handler closure. -/
def onStartSuccess (meetingId : String) (st : PipelineState) :
    PipelineState × List SummaryCall :=
  let st := { st with summarySessionActive := true }
  if st.pendingChunks.length > 0 then
    let backlog := String.intercalate " " st.pendingChunks
    ({ st with pendingChunks := [] }, [SummaryCall.addChunk meetingId backlog])
  else (st, [])

/-- The `.then(summary => updateIncrementalSummary(summary))`
continuation of `addIncrementalSummaryChunk`: the handler closure
captures the meeting id the call was issued with (`responseMeetingId`)
but the continuation never compares it with `currentMeetingIdRef`; the
summary is stored unconditionally. -/
def applyAddChunkResponse (responseMeetingId : String) (summary : SummaryResponse)
    (st : PipelineState) : PipelineState :=
  { st with incrementalSummary := some summary }

/-- The synchronous state effects of the recording-started handler: a
start while `summaryStartedRef` is set is ignored outright; otherwise
the new meeting id is locked in, the started flag is set, and the
session fields are reset (`summarySessionActiveRef.current = false;
pendingChunksRef.current = []`). -/
def onRecordingStarted (newMeetingId : String) (st : PipelineState) : PipelineState :=
  if st.summaryStarted then st
  else
    { st with
      currentMeetingId := some newMeetingId
      summaryStarted := true
      summarySessionActive := false
      pendingChunks := [] }

/-- `clearTranscripts` (invoked when a new recording is started): empty
the transcript list, drop the incremental summary, reset the started
flag; the current meeting id is intentionally kept, and the buffering
closure's state is out of its reach. -/
def clearTranscripts (st : PipelineState) : PipelineState :=
  { st with
    transcripts := []
    incrementalSummary := none
    summaryStarted := false }

/-- The recording-stopped handler: when a meeting id is present it
issues `end(meetingId)`; a failed end call (`endOk = false`) is caught
and logged inside the handler, so the state effects are the same either
way — in particular the handler touches neither
`summarySessionActiveRef` nor `pendingChunksRef`. -/
def onRecordingStopped (endOk : Bool) (st : PipelineState) :
    PipelineState × List SummaryCall :=
  match st.currentMeetingId with
  | none => (st, [])
  | some meetingId => (st, [SummaryCall.endSession meetingId])

/-- Events of the sequential owner loop used to state ordering claims:
a flushed batch text reaching the summary dispatch, and the settling of
a successful `start` response. -/
inductive PEvent where
  | chunk (text : String)
  | startSuccess (meetingId : String)
deriving DecidableEq, Repr

/-- Run a list of events, concatenating the SummaryClient calls they
issue in order. -/
def runEvents (st : PipelineState) : List PEvent → PipelineState × List SummaryCall
  | [] => (st, [])
  | e :: rest =>
    let r :=
      match e with
      | PEvent.chunk text => dispatchChunk text st
      | PEvent.startSuccess mid => onStartSuccess mid st
    let r2 := runEvents r.1 rest
    (r2.1, r.2 ++ r2.2)

/- ### Rewriting equations and structural lemmas for the buffer loop -/

theorem contiguousRun_of_none {buf : List (Nat × Transcript)} {lastSeq : Nat}
    (h : bufGet buf (lastSeq + 1) = none) :
    contiguousRun buf lastSeq = ([], buf, lastSeq) := by
  rw [contiguousRun]
  split <;> simp_all

theorem contiguousRun_of_some {buf : List (Nat × Transcript)} {lastSeq : Nat} {t : Transcript}
    (h : bufGet buf (lastSeq + 1) = some t) :
    contiguousRun buf lastSeq =
      (t :: (contiguousRun (bufDelete buf (lastSeq + 1)) (lastSeq + 1)).1,
       (contiguousRun (bufDelete buf (lastSeq + 1)) (lastSeq + 1)).2.1,
       (contiguousRun (bufDelete buf (lastSeq + 1)) (lastSeq + 1)).2.2) := by
  rw [contiguousRun]
  split <;> simp_all

theorem contiguousRun_rem_subset (buf : List (Nat × Transcript)) (lastSeq : Nat) :
    ∀ p ∈ (contiguousRun buf lastSeq).2.1, p ∈ buf := by
  induction buf, lastSeq using contiguousRun.induct with
  | case1 buf lastSeq h =>
    rw [contiguousRun_of_none h]
    intro p hp
    exact hp
  | case2 buf lastSeq t h a hlen ih =>
    rw [contiguousRun_of_some h]
    intro p hp
    have hm : p ∈ bufDelete buf (lastSeq + 1) := ih p hp
    simp only [bufDelete, List.mem_filter] at hm
    exact hm.1

theorem classifyLoop_force (now : Nat) (buf : List (Nat × Transcript)) :
    classifyLoop true now buf = ([], [], buf.map Prod.snd, []) := by
  induction buf with
  | nil => rfl
  | cons p rest ih => simp [classifyLoop, ih]

theorem classifyLoop_rem_nil (now : Nat) (buf : List (Nat × Transcript))
    (h : ∀ p ∈ buf, p.2.idTime ≤ now) :
    (classifyLoop false now buf).2.2.2 = [] := by
  induction buf with
  | nil => rfl
  | cons p rest ih =>
    have hp := h p (by simp)
    have hrest : ∀ q ∈ rest, q.2.idTime ≤ now := fun q hq => h q (by simp [hq])
    have hage : (0 : Int) ≤ (now : Int) - (p.2.idTime : Int) := by
      omega
    by_cases hgt : ((now : Int) - (p.2.idTime : Int)) > 100 <;>
      simp [classifyLoop, hgt, hage, ih hrest]

theorem flush_force_buffer_nil (now : Nat) (st : BufferState) :
    ((flush true now st).2).buffer = [] := by
  simp [flush, flushParts, classifyLoop_force]

/-- Claim C10: with `recentThreshold = 0`, `flush(false)` also leaves
the buffer empty whenever every buffered fragment arrived no later than
the current time (so its age is non-negative). -/
theorem flush_nonforce_empties_buffer (now : Nat) (st : BufferState)
    (h : ∀ p ∈ st.buffer, p.2.idTime ≤ now) :
    ((flush false now st).2).buffer = [] := by
  have : ((flush false now st).2).buffer =
      (classifyLoop false now
        (contiguousRun st.buffer st.lastProcessedSequence).2.1).2.2.2 := rfl
  rw [this]
  apply classifyLoop_rem_nil
  intro p hp
  exact h p (contiguousRun_rem_subset _ _ p hp)

theorem bufGet_perm {buf : List (Nat × Transcript)} {k : Nat} {t : Transcript}
    (hnd : (buf.map Prod.fst).Nodup) (h : bufGet buf k = some t) :
    buf.map Prod.snd ~ t :: (bufDelete buf k).map Prod.snd := by
  induction buf with
  | nil => simp [bufGet] at h
  | cons p rest ih =>
    simp only [List.map_cons, List.nodup_cons] at hnd
    by_cases hk : p.1 = k
    · have hget : bufGet (p :: rest) k = some p.2 := by
        simp [bufGet, List.find?_cons, hk]
      rw [hget] at h
      obtain rfl : p.2 = t := by simpa using h
      have hrest : bufDelete rest k = rest := by
        apply List.filter_eq_self.mpr
        intro a ha
        have : a.1 ≠ k := by
          intro hak
          apply hnd.1
          rw [hk, ← hak]
          exact List.mem_map_of_mem Prod.fst ha
        simp [this]
      have hdel : bufDelete (p :: rest) k = rest := by
        simp only [bufDelete, List.filter_cons]
        have : (p.1 != k) = false := by simp [hk]
        rw [this]
        simpa [bufDelete] using hrest
      rw [hdel]
      simp
    · have hget : bufGet rest k = some t := by
        have : (p.1 == k) = false := by simp [hk]
        simpa [bufGet, List.find?_cons, this] using h
      have hdel : bufDelete (p :: rest) k = p :: bufDelete rest k := by
        simp only [bufDelete, List.filter_cons]
        have : (p.1 != k) = true := by simp [hk]
        simp [this]
      rw [hdel]
      calc (p :: rest).map Prod.snd
          = p.2 :: rest.map Prod.snd := by simp
        _ ~ p.2 :: t :: (bufDelete rest k).map Prod.snd :=
            List.Perm.cons _ (ih hnd.2 hget)
        _ ~ t :: p.2 :: (bufDelete rest k).map Prod.snd := List.Perm.swap _ _ _
        _ = t :: (p :: bufDelete rest k).map Prod.snd := by simp

theorem bufDelete_keys_sublist (buf : List (Nat × Transcript)) (k : Nat) :
    (bufDelete buf k).map Prod.fst <+ buf.map Prod.fst :=
  (List.filter_sublist buf).map Prod.fst

theorem bufDelete_keys_nodup {buf : List (Nat × Transcript)} (k : Nat)
    (hnd : (buf.map Prod.fst).Nodup) : ((bufDelete buf k).map Prod.fst).Nodup :=
  hnd.sublist (bufDelete_keys_sublist buf k)

theorem contiguousRun_perm (buf : List (Nat × Transcript)) (lastSeq : Nat) :
    (buf.map Prod.fst).Nodup →
    buf.map Prod.snd ~
      (contiguousRun buf lastSeq).1 ++ ((contiguousRun buf lastSeq).2.1).map Prod.snd := by
  induction buf, lastSeq using contiguousRun.induct with
  | case1 buf lastSeq h =>
    intro hnd
    rw [contiguousRun_of_none h]
    simp
  | case2 buf lastSeq t h a hlen ih =>
    intro hnd
    rw [contiguousRun_of_some h]
    have step := bufGet_perm hnd h
    have ihh : (bufDelete buf (lastSeq + 1)).map Prod.snd ~
        (contiguousRun (bufDelete buf (lastSeq + 1)) (lastSeq + 1)).1 ++
          ((contiguousRun (bufDelete buf (lastSeq + 1)) (lastSeq + 1)).2.1).map Prod.snd :=
      ih (bufDelete_keys_nodup _ hnd)
    calc buf.map Prod.snd
        ~ t :: (bufDelete buf (lastSeq + 1)).map Prod.snd := step
      _ ~ t :: ((contiguousRun (bufDelete buf (lastSeq + 1)) (lastSeq + 1)).1 ++
            ((contiguousRun (bufDelete buf (lastSeq + 1)) (lastSeq + 1)).2.1).map Prod.snd) :=
          List.Perm.cons _ ihh

theorem classifyLoop_cons_force (now : Nat) (sid : Nat) (t : Transcript)
    (rest : List (Nat × Transcript)) :
    classifyLoop true now ((sid, t) :: rest) =
      ((classifyLoop true now rest).1, (classifyLoop true now rest).2.1,
       t :: (classifyLoop true now rest).2.2.1, (classifyLoop true now rest).2.2.2) := by
  simp [classifyLoop]

theorem classifyLoop_cons_stale {now : Nat} {t : Transcript} (sid : Nat)
    (rest : List (Nat × Transcript)) (h : ((now : Int) - (t.idTime : Int)) > 100) :
    classifyLoop false now ((sid, t) :: rest) =
      (t :: (classifyLoop false now rest).1, (classifyLoop false now rest).2.1,
       (classifyLoop false now rest).2.2.1, (classifyLoop false now rest).2.2.2) := by
  simp [classifyLoop, h]

theorem classifyLoop_cons_recent {now : Nat} {t : Transcript} (sid : Nat)
    (rest : List (Nat × Transcript)) (h1 : ¬ ((now : Int) - (t.idTime : Int)) > 100)
    (h2 : ((now : Int) - (t.idTime : Int)) ≥ 0) :
    classifyLoop false now ((sid, t) :: rest) =
      ((classifyLoop false now rest).1, t :: (classifyLoop false now rest).2.1,
       (classifyLoop false now rest).2.2.1, (classifyLoop false now rest).2.2.2) := by
  simp [classifyLoop, h1, h2]

theorem classifyLoop_cons_young {now : Nat} {t : Transcript} (sid : Nat)
    (rest : List (Nat × Transcript)) (h1 : ¬ ((now : Int) - (t.idTime : Int)) > 100)
    (h2 : ¬ ((now : Int) - (t.idTime : Int)) ≥ 0) :
    classifyLoop false now ((sid, t) :: rest) =
      ((classifyLoop false now rest).1, (classifyLoop false now rest).2.1,
       (classifyLoop false now rest).2.2.1, (sid, t) :: (classifyLoop false now rest).2.2.2) := by
  simp [classifyLoop, h1, h2]

theorem classifyLoop_perm (f : Bool) (now : Nat) (buf : List (Nat × Transcript)) :
    buf.map Prod.snd ~
      (classifyLoop f now buf).1 ++ (classifyLoop f now buf).2.1 ++
        (classifyLoop f now buf).2.2.1 ++ ((classifyLoop f now buf).2.2.2).map Prod.snd := by
  induction buf with
  | nil => simp [classifyLoop]
  | cons p rest ih =>
    obtain ⟨sid, t⟩ := p
    set A := (classifyLoop f now rest).1 with hA
    set B := (classifyLoop f now rest).2.1 with hB
    set C := (classifyLoop f now rest).2.2.1 with hC
    set D := ((classifyLoop f now rest).2.2.2).map Prod.snd with hD
    by_cases hf : f = true
    · subst hf
      rw [classifyLoop_cons_force]
      show t :: rest.map Prod.snd ~ A ++ B ++ (t :: C) ++ D
      refine (List.Perm.cons t ih).trans ?_
      have e1 : A ++ B ++ (t :: C) ++ D = (A ++ B) ++ (t :: (C ++ D)) := by
        simp [List.append_assoc]
      have e2 : t :: (A ++ B ++ C ++ D) = t :: ((A ++ B) ++ (C ++ D)) := by
        simp [List.append_assoc]
      rw [e1, e2]
      exact List.perm_middle.symm
    · have hf' : f = false := by simpa using hf
      subst hf'
      by_cases hgt : ((now : Int) - (t.idTime : Int)) > 100
      · rw [classifyLoop_cons_stale sid rest hgt]
        show t :: rest.map Prod.snd ~ (t :: A) ++ B ++ C ++ D
        exact List.Perm.cons t ih
      · by_cases hge : ((now : Int) - (t.idTime : Int)) ≥ 0
        · rw [classifyLoop_cons_recent sid rest hgt hge]
          show t :: rest.map Prod.snd ~ A ++ (t :: B) ++ C ++ D
          refine (List.Perm.cons t ih).trans ?_
          have e1 : A ++ (t :: B) ++ C ++ D = A ++ (t :: (B ++ (C ++ D))) := by
            simp [List.append_assoc]
          have e2 : t :: (A ++ B ++ C ++ D) = t :: (A ++ (B ++ (C ++ D))) := by
            simp [List.append_assoc]
          rw [e1, e2]
          exact List.perm_middle.symm
        · rw [classifyLoop_cons_young sid rest hgt hge]
          show t :: rest.map Prod.snd ~ A ++ B ++ C ++ (t :: D)
          exact (List.Perm.cons t ih).trans List.perm_middle.symm

theorem flush_perm (f : Bool) (now : Nat) (st : BufferState)
    (hnd : (st.buffer.map Prod.fst).Nodup) :
    (flush f now st).1 ++ ((flush f now st).2.buffer).map Prod.snd ~
      st.buffer.map Prod.snd := by
  set c1 := (contiguousRun st.buffer st.lastProcessedSequence).1 with hc1
  set rem := (contiguousRun st.buffer st.lastProcessedSequence).2.1 with hrem
  set S := (classifyLoop f now rem).1 with hS
  set R := (classifyLoop f now rem).2.1 with hR
  set F := (classifyLoop f now rem).2.2.1 with hF
  set RV := ((classifyLoop f now rem).2.2.2).map Prod.snd with hRV
  have hshape : (flush f now st).1 ++ ((flush f now st).2.buffer).map Prod.snd =
      c1 ++ (sortTranscripts R ++ (sortTranscripts S ++ (sortTranscripts F ++ RV))) := by
    simp [flush, flushParts, List.append_assoc]
  rw [hshape]
  have hsorts : sortTranscripts R ++ (sortTranscripts S ++ (sortTranscripts F ++ RV)) ~
      R ++ (S ++ (F ++ RV)) := by
    refine List.Perm.append (List.mergeSort_perm R _) ?_
    exact List.Perm.append (List.mergeSort_perm S _)
      (List.Perm.append (List.mergeSort_perm F _) (List.Perm.refl RV))
  have hswap : R ++ (S ++ (F ++ RV)) ~ S ++ (R ++ (F ++ RV)) := by
    simp only [← List.append_assoc]
    exact (List.perm_append_comm.append_right F).append_right RV
  have hclass : S ++ (R ++ (F ++ RV)) ~ rem.map Prod.snd := by
    have := (classifyLoop_perm f now rem).symm
    simpa [List.append_assoc] using this
  have hcont : c1 ++ rem.map Prod.snd ~ st.buffer.map Prod.snd :=
    (contiguousRun_perm st.buffer st.lastProcessedSequence hnd).symm
  calc c1 ++ (sortTranscripts R ++ (sortTranscripts S ++ (sortTranscripts F ++ RV)))
      ~ c1 ++ (R ++ (S ++ (F ++ RV))) := List.Perm.append_left c1 hsorts
    _ ~ c1 ++ (S ++ (R ++ (F ++ RV))) := List.Perm.append_left c1 hswap
    _ ~ c1 ++ rem.map Prod.snd := List.Perm.append_left c1 hclass
    _ ~ st.buffer.map Prod.snd := hcont

theorem vals_map_seq {buf : List (Nat × Transcript)}
    (h : ∀ p ∈ buf, p.2.sequence_id = p.1) :
    (buf.map Prod.snd).map (·.sequence_id) = buf.map Prod.fst := by
  induction buf with
  | nil => rfl
  | cons p rest ih =>
    have hp := h p (by simp)
    have hrest : ∀ q ∈ rest, q.2.sequence_id = q.1 := fun q hq => h q (by simp [hq])
    simp [hp, ih hrest]

theorem flush_batch_seq_nodup (f : Bool) (now : Nat) (st : BufferState)
    (hwf : BufferWF st) :
    ((flush f now st).1.map (·.sequence_id)).Nodup := by
  have hperm : ((flush f now st).1 ++ ((flush f now st).2.buffer).map Prod.snd).map
      (·.sequence_id) ~ (st.buffer.map Prod.snd).map (·.sequence_id) :=
    (flush_perm f now st hwf.1).map _
  rw [vals_map_seq hwf.2] at hperm
  have hnd : (((flush f now st).1 ++ ((flush f now st).2.buffer).map Prod.snd).map
      (·.sequence_id)).Nodup := hperm.symm.nodup hwf.1
  rw [List.map_append] at hnd
  exact (List.nodup_append.mp hnd).1

/-- Every fragment of a well-formed buffer appears in the batch or in
the remaining buffer after a flush. -/
theorem flush_mem (f : Bool) (now : Nat) (st : BufferState)
    (hnd : (st.buffer.map Prod.fst).Nodup) {k : Nat} {t : Transcript}
    (h : (k, t) ∈ st.buffer) :
    t ∈ (flush f now st).1 ∨ t ∈ ((flush f now st).2.buffer).map Prod.snd := by
  have hperm := flush_perm f now st hnd
  have : t ∈ st.buffer.map Prod.snd := by
    exact List.mem_map_of_mem Prod.snd h
  have := hperm.symm.subset this
  simpa using List.mem_append.mp this

/-- Concrete fragment with sequence id 1 used in the C9 witness. -/
def tw9a : Transcript :=
  { idTime := 3, idCounter := 0, text := "w1", timestamp := "ts",
    sequence_id := 1, chunk_start_time := 0, is_partial := false }

/-- Concrete fragment with sequence id 5 used in the C9 witness. -/
def tw9b : Transcript :=
  { idTime := 4, idCounter := 1, text := "w5", timestamp := "ts",
    sequence_id := 5, chunk_start_time := 9, is_partial := false }

/-- Claim C9: `flush(true)` removes every buffered fragment — each one
ends up in the returned batch (consumed by the contiguous run or taken
as forced) — leaving BufferState empty afterwards.  (The unique-keys
hypothesis is the JS `Map` well-formedness of the buffer.) -/
theorem flush_force_empties_buffer (now : Nat) (st : BufferState)
    (hnd : (st.buffer.map Prod.fst).Nodup) :
    ((flush true now st).2).buffer = [] ∧
      ∀ k t, (k, t) ∈ st.buffer → t ∈ (flush true now st).1 := by
  refine ⟨flush_force_buffer_nil now st, ?_⟩
  intro k t hkt
  rcases flush_mem true now st hnd hkt with h | h
  · exact h
  · rw [flush_force_buffer_nil now st] at h
    simp at h

/-- Witness for C9: a concrete two-fragment buffer (one contiguous,
one out of order) has unique keys, is fully drained, and both
fragments land in the batch. -/
theorem flush_force_empties_buffer_witness :
    ((BufferState.mk [(1, tw9a), (5, tw9b)] 0).buffer.map Prod.fst).Nodup ∧
    ((flush true 20 (BufferState.mk [(1, tw9a), (5, tw9b)] 0)).2).buffer = [] ∧
    tw9b ∈ (flush true 20 (BufferState.mk [(1, tw9a), (5, tw9b)] 0)).1 :=
  ⟨by decide,
   (flush_force_empties_buffer 20 _ (by decide)).1,
   (flush_force_empties_buffer 20 _ (by decide)).2 5 tw9b (by decide)⟩

/- ### Order facts for the (chunk_start_time, sequence_id) comparator -/

theorem transcriptLE_trans : ∀ (a b c : Transcript),
    transcriptLE a b → transcriptLE b c → transcriptLE a c := by
  intro a b c hab hbc
  simp only [transcriptLE, Bool.or_eq_true, Bool.and_eq_true, decide_eq_true_eq,
    beq_iff_eq] at *
  omega

theorem transcriptLE_total : ∀ (a b : Transcript),
    transcriptLE a b || transcriptLE b a := by
  intro a b
  simp only [transcriptLE, Bool.or_eq_true, Bool.and_eq_true, decide_eq_true_eq,
    beq_iff_eq]
  omega

theorem sortTranscripts_sorted (l : List Transcript) :
    (sortTranscripts l).Pairwise (fun a b => transcriptLE a b = true) :=
  List.sorted_mergeSort transcriptLE_trans transcriptLE_total l

theorem sortTranscripts_perm (l : List Transcript) : sortTranscripts l ~ l :=
  List.mergeSort_perm l transcriptLE

theorem transcriptLT_of_le_of_ne {a b : Transcript} (h1 : transcriptLE a b = true)
    (h2 : a.sequence_id ≠ b.sequence_id) : transcriptLT a b := by
  simp only [transcriptLE, Bool.or_eq_true, Bool.and_eq_true, decide_eq_true_eq,
    beq_iff_eq] at h1
  simp only [transcriptLT]
  omega

theorem pairwise_lt_of_sorted_nodup {l : List Transcript}
    (hle : l.Pairwise (fun a b => transcriptLE a b = true))
    (hnd : (l.map (·.sequence_id)).Nodup) : l.Pairwise transcriptLT := by
  rw [List.Nodup, List.pairwise_map] at hnd
  exact (hle.and hnd).imp (fun h => transcriptLT_of_le_of_ne h.1 h.2)

/- ### Merge lemmas -/

theorem mergeTranscripts_of_isEmpty {B L : List Transcript}
    (h : (B.filter (fun t => ! (L.map (·.sequence_id)).contains t.sequence_id)).isEmpty) :
    mergeTranscripts B L = L := by
  simp only [mergeTranscripts, h, if_true]

theorem mergeTranscripts_of_not_isEmpty {B L : List Transcript}
    (h : ¬ (B.filter (fun t => ! (L.map (·.sequence_id)).contains t.sequence_id)).isEmpty) :
    mergeTranscripts B L =
      sortTranscripts
        (L ++ B.filter (fun t => ! (L.map (·.sequence_id)).contains t.sequence_id)) := by
  simp only [mergeTranscripts]
  rw [if_neg (by simpa using h)]

theorem mergeTranscripts_mem_seq (B L : List Transcript) (s : Nat) :
    s ∈ (mergeTranscripts B L).map (·.sequence_id) ↔
      s ∈ L.map (·.sequence_id) ∨ s ∈ B.map (·.sequence_id) := by
  by_cases h : (B.filter (fun t => ! (L.map (·.sequence_id)).contains t.sequence_id)).isEmpty
  · rw [mergeTranscripts_of_isEmpty h]
    rw [List.isEmpty_iff, List.filter_eq_nil_iff] at h
    constructor
    · exact Or.inl
    · rintro (hs | hs)
      · exact hs
      · simp only [List.mem_map] at hs
        obtain ⟨t, ht, rfl⟩ := hs
        have := h t ht
        simp only [Bool.not_eq_true', Bool.not_not, Bool.not_eq_false] at this
        simpa using this
  · rw [mergeTranscripts_of_not_isEmpty h]
    have hperm : (sortTranscripts
        (L ++ B.filter (fun t => ! (L.map (·.sequence_id)).contains t.sequence_id))).map
          (·.sequence_id) ~
        (L ++ B.filter (fun t => ! (L.map (·.sequence_id)).contains t.sequence_id)).map
          (·.sequence_id) := (sortTranscripts_perm _).map _
    rw [hperm.mem_iff, List.map_append, List.mem_append]
    constructor
    · rintro (hs | hs)
      · exact Or.inl hs
      · simp only [List.mem_map, List.mem_filter] at hs
        obtain ⟨t, ⟨ht, _⟩, rfl⟩ := hs
        exact Or.inr (List.mem_map_of_mem _ ht)
    · rintro (hs | hs)
      · exact Or.inl hs
      · by_cases hin : s ∈ L.map (·.sequence_id)
        · exact Or.inl hin
        · simp only [List.mem_map] at hs
          obtain ⟨t, ht, rfl⟩ := hs
          refine Or.inr (List.mem_map_of_mem _ ?_)
          rw [List.mem_filter]
          refine ⟨ht, ?_⟩
          simpa using hin

/-- The `setTranscripts` updater preserves the TranscriptList
invariant, provided the incoming batch has no duplicated sequence ids
among its own fragments (which holds for every batch the buffer
produces, the buffer being keyed by sequence id). -/
theorem mergeTranscripts_inv {B L : List Transcript}
    (hB : (B.map (·.sequence_id)).Nodup) (hL : TranscriptListInv L) :
    TranscriptListInv (mergeTranscripts B L) := by
  by_cases h : (B.filter (fun t => ! (L.map (·.sequence_id)).contains t.sequence_id)).isEmpty
  · rw [mergeTranscripts_of_isEmpty h]
    exact hL
  · rw [mergeTranscripts_of_not_isEmpty h]
    set U := B.filter (fun t => ! (L.map (·.sequence_id)).contains t.sequence_id) with hU
    have hperm : (sortTranscripts (L ++ U)).map (·.sequence_id) ~
        (L ++ U).map (·.sequence_id) := (sortTranscripts_perm _).map _
    have hndU : (U.map (·.sequence_id)).Nodup := by
      have : U.map (·.sequence_id) <+ B.map (·.sequence_id) :=
        (List.filter_sublist B).map _
      exact hB.sublist this
    have hdisj : ∀ s ∈ L.map (·.sequence_id), s ∉ U.map (·.sequence_id) := by
      intro s hsL hsU
      simp only [List.mem_map, List.mem_filter, hU] at hsU
      obtain ⟨t, ⟨_, hcon⟩, rfl⟩ := hsU
      simp only [Bool.not_eq_true'] at hcon
      rw [List.contains_eq_any_beq] at hcon
      simp only [List.any_eq_false, beq_iff_eq] at hcon
      exact hcon _ hsL rfl
    have hnd : ((L ++ U).map (·.sequence_id)).Nodup := by
      rw [List.map_append, List.nodup_append]
      exact ⟨hL.2, hndU, fun a ha hb => hdisj a ha hb⟩
    have hndSorted : ((sortTranscripts (L ++ U)).map (·.sequence_id)).Nodup :=
      hperm.symm.nodup hnd
    exact ⟨pairwise_lt_of_sorted_nodup (sortTranscripts_sorted _) hndSorted, hndSorted⟩

theorem bufHas_iff {buf : List (Nat × Transcript)} {k : Nat} :
    bufHas buf k = true ↔ k ∈ buf.map Prod.fst := by
  simp [bufHas, List.any_eq_true, beq_iff_eq, List.mem_map]

/- ### Ingestion of an arbitrary arrival sequence -/

/-- Deliver a list of (arrival time, update) events to the main
listener in order, threading the buffer state and the id counter. -/
def ingestFrom (st : BufferState) (counter : Nat) :
    List (Nat × TranscriptUpdate) → BufferState × Nat
  | [] => (st, counter)
  | a :: rest =>
    let r := addFragment a.1 a.2 st counter
    ingestFrom r.1 r.2 rest

theorem addFragment_of_has {now : Nat} {u : TranscriptUpdate} {st : BufferState}
    {counter : Nat} (h : bufHas st.buffer u.sequence_id = true) :
    addFragment now u st counter = (st, counter) := by
  simp [addFragment, h]

theorem addFragment_of_not_has {now : Nat} {u : TranscriptUpdate} {st : BufferState}
    {counter : Nat} (h : bufHas st.buffer u.sequence_id = false) :
    addFragment now u st counter =
      ({ st with buffer := st.buffer ++ [(u.sequence_id,
          { idTime := now, idCounter := counter, text := u.text, timestamp := u.timestamp,
            sequence_id := u.sequence_id, chunk_start_time := u.chunk_start_time,
            is_partial := u.is_partial })] }, counter + 1) := by
  simp [addFragment, h]

theorem addFragment_wf {now : Nat} {u : TranscriptUpdate} {st : BufferState}
    {counter : Nat} (hwf : BufferWF st) : BufferWF (addFragment now u st counter).1 := by
  by_cases h : bufHas st.buffer u.sequence_id
  · rw [addFragment_of_has h]
    exact hwf
  · have hb : bufHas st.buffer u.sequence_id = false := by simpa using h
    have hnotin : u.sequence_id ∉ st.buffer.map Prod.fst := by
      rw [← bufHas_iff, hb]
      simp
    rw [addFragment_of_not_has hb]
    constructor
    · simp only [List.map_append]
      rw [List.nodup_append]
      refine ⟨hwf.1, List.nodup_singleton _, ?_⟩
      intro a ha hb2
      simp only [List.map_cons, List.map_nil, List.mem_singleton] at hb2
      exact hnotin (hb2 ▸ ha)
    · intro p hp
      simp only [List.mem_append, List.mem_singleton] at hp
      rcases hp with hp | hp
      · exact hwf.2 p hp
      · subst hp; rfl

theorem addFragment_lastSeq (now : Nat) (u : TranscriptUpdate) (st : BufferState)
    (counter : Nat) :
    (addFragment now u st counter).1.lastProcessedSequence = st.lastProcessedSequence := by
  by_cases h : bufHas st.buffer u.sequence_id
  · rw [addFragment_of_has h]
  · rw [addFragment_of_not_has (by simpa using h)]

theorem addFragment_keys (now : Nat) (u : TranscriptUpdate) (st : BufferState)
    (counter : Nat) (s : Nat) :
    s ∈ (addFragment now u st counter).1.buffer.map Prod.fst ↔
      s ∈ st.buffer.map Prod.fst ∨ s = u.sequence_id := by
  by_cases h : bufHas st.buffer u.sequence_id
  · rw [addFragment_of_has h]
    constructor
    · exact Or.inl
    · rintro (hs | rfl)
      · exact hs
      · exact bufHas_iff.mp h
  · rw [addFragment_of_not_has (by simpa using h)]
    simp

theorem ingestFrom_wf (arrivals : List (Nat × TranscriptUpdate)) :
    ∀ (st : BufferState) (counter : Nat), BufferWF st →
      BufferWF (ingestFrom st counter arrivals).1 := by
  induction arrivals with
  | nil => intro st counter h; exact h
  | cons a rest ih =>
    intro st counter h
    exact ih _ _ (addFragment_wf h)

theorem ingestFrom_lastSeq (arrivals : List (Nat × TranscriptUpdate)) :
    ∀ (st : BufferState) (counter : Nat),
      (ingestFrom st counter arrivals).1.lastProcessedSequence =
        st.lastProcessedSequence := by
  induction arrivals with
  | nil => intro st counter; rfl
  | cons a rest ih =>
    intro st counter
    rw [ingestFrom, ih, addFragment_lastSeq]

theorem ingestFrom_keys (arrivals : List (Nat × TranscriptUpdate)) :
    ∀ (st : BufferState) (counter : Nat) (s : Nat),
      s ∈ (ingestFrom st counter arrivals).1.buffer.map Prod.fst ↔
        s ∈ st.buffer.map Prod.fst ∨ s ∈ arrivals.map (·.2.sequence_id) := by
  induction arrivals with
  | nil => intro st counter s; simp [ingestFrom]
  | cons a rest ih =>
    intro st counter s
    rw [ingestFrom, ih, addFragment_keys]
    simp only [List.map_cons, List.mem_cons]
    tauto

/- ### Theorems for the claims on merge and the full pipeline -/

/-- Claim C8: the merge step is idempotent — re-merging a batch that
has already been applied returns the list unchanged. -/
theorem mergeTranscripts_idempotent (B L : List Transcript) :
    mergeTranscripts B (mergeTranscripts B L) = mergeTranscripts B L := by
  apply mergeTranscripts_of_isEmpty
  rw [List.isEmpty_iff, List.filter_eq_nil_iff]
  intro t ht
  have hmem : t.sequence_id ∈ (mergeTranscripts B L).map (·.sequence_id) :=
    (mergeTranscripts_mem_seq B L _).mpr (Or.inr (List.mem_map_of_mem _ ht))
  simp only [Bool.not_eq_true', Bool.not_eq_false]
  rw [List.contains_eq_any_beq]
  simp only [List.any_eq_true, beq_iff_eq]
  exact ⟨t.sequence_id, hmem, rfl⟩

theorem processFlush_eq_merge (f : Bool) (now : Nat) (st : BufferState)
    (prev : List Transcript) :
    (processFlush f now st prev).2 = mergeTranscripts (flush f now st).1 prev := by
  simp only [processFlush]
  by_cases h : (flush f now st).1.length > 0
  · simp [h]
  · have hnil : (flush f now st).1 = [] := by
      cases heq : (flush f now st).1 with
      | nil => rfl
      | cons x xs => rw [heq] at h; simp at h
    rw [hnil]
    simp only [List.length_nil, gt_iff_lt, Nat.lt_irrefl, if_false]
    rw [mergeTranscripts_of_isEmpty (by simp)]

theorem processFlush_inv (f : Bool) (now : Nat) (st : BufferState)
    (L : List Transcript) (hwf : BufferWF st) (hL : TranscriptListInv L) :
    TranscriptListInv (processFlush f now st L).2 := by
  rw [processFlush_eq_merge]
  exact mergeTranscripts_inv (flush_batch_seq_nodup f now st hwf) hL

/-- Claim C3 (amended part): the flush-and-merge path preserves the
TranscriptList invariant for every well-formed buffer. -/
theorem processFlush_preserves_inv (f : Bool) (now : Nat) (st : BufferState)
    (L : List Transcript) (hwf : BufferWF st) (hL : TranscriptListInv L) :
    TranscriptListInv (processFlush f now st L).2 :=
  processFlush_inv f now st L hwf hL

/-- Claim C2: for every arrival sequence (any permutation, arbitrary
duplicate sequence ids, each id at least 1) delivered to the listener,
flushing with force and merging the batch yields a TranscriptList with
exactly one entry per distinct arriving sequence id (no duplicates,
and an entry for exactly the ids that arrived), strictly sorted by
(chunk_start_time, sequence_id). -/
theorem ingest_flush_merge_correct (arrivals : List (Nat × TranscriptUpdate))
    (flushNow : Nat) (hseq : ∀ a ∈ arrivals, 1 ≤ a.2.sequence_id) :
    (((processFlush true flushNow (ingestFrom ⟨[], 0⟩ 0 arrivals).1 []).2).map
        (·.sequence_id)).Nodup ∧
    (∀ s, s ∈ ((processFlush true flushNow (ingestFrom ⟨[], 0⟩ 0 arrivals).1 []).2).map
        (·.sequence_id) ↔ s ∈ arrivals.map (·.2.sequence_id)) ∧
    ((processFlush true flushNow (ingestFrom ⟨[], 0⟩ 0 arrivals).1 []).2).Pairwise
      transcriptLT := by
  set st := (ingestFrom ⟨[], 0⟩ 0 arrivals).1 with hst
  have hwf : BufferWF st := ingestFrom_wf arrivals _ _ ⟨List.nodup_nil, by simp⟩
  have hinv : TranscriptListInv (processFlush true flushNow st []).2 :=
    processFlush_inv true flushNow st [] hwf ⟨List.Pairwise.nil, List.nodup_nil⟩
  refine ⟨hinv.2, ?_, hinv.1⟩
  intro s
  rw [processFlush_eq_merge, mergeTranscripts_mem_seq]
  have hrem : ((flush true flushNow st).2).buffer = [] := flush_force_buffer_nil _ _
  have hperm := flush_perm true flushNow st hwf.1
  rw [hrem] at hperm
  simp only [List.map_nil, List.append_nil] at hperm
  have hseqperm := hperm.map (·.sequence_id)
  rw [vals_map_seq hwf.2] at hseqperm
  have hkeys := ingestFrom_keys arrivals ⟨[], 0⟩ 0 s
  rw [← hst] at hkeys
  simp only [List.map_nil, List.not_mem_nil, false_or] at *
  rw [hseqperm.mem_iff, hkeys]

/-- Sample update used in concrete witnesses. -/
def uw (seqId : Nat) (cst : Int) (txt : String) : TranscriptUpdate :=
  { text := txt, timestamp := "t", sequence_id := seqId, chunk_start_time := cst,
    is_partial := false }

/-- Witness for C2: arrivals with sequence ids [2, 1, 2] (a duplicated
id, out of order) satisfy the id-positivity hypothesis, and the theorem
applies to this concrete run. -/
theorem ingest_flush_merge_correct_witness :
    (∀ a ∈ [(0, uw 2 7 "b"), (5, uw 1 3 "a"), (9, uw 2 8 "dup")],
        1 ≤ a.2.sequence_id) ∧
    ((((processFlush true 50
        (ingestFrom ⟨[], 0⟩ 0 [(0, uw 2 7 "b"), (5, uw 1 3 "a"), (9, uw 2 8 "dup")]).1 []).2).map
        (·.sequence_id)).Nodup ∧
      (1 ∈ (((processFlush true 50
        (ingestFrom ⟨[], 0⟩ 0 [(0, uw 2 7 "b"), (5, uw 1 3 "a"), (9, uw 2 8 "dup")]).1 []).2).map
        (·.sequence_id)) ↔
        1 ∈ [(0, uw 2 7 "b"), (5, uw 1 3 "a"), (9, uw 2 8 "dup")].map (·.2.sequence_id))) :=
  ⟨by decide,
   (ingest_flush_merge_correct _ 50 (by decide)).1,
   (ingest_flush_merge_correct _ 50 (by decide)).2.1 1⟩

/-- Sample fragment used in concrete witnesses. -/
def tw (seqId : Nat) (arrival : Nat) (cst : Int) : Transcript :=
  { idTime := arrival, idCounter := 0, text := "w", timestamp := "ts",
    sequence_id := seqId, chunk_start_time := cst, is_partial := false }

/-- Witness for the amended C3: a concrete well-formed buffer and an
invariant-satisfying list on which the flush-and-merge path keeps the
invariant. -/
theorem processFlush_preserves_inv_witness :
    BufferWF (BufferState.mk [(1, tw 1 0 4)] 0) ∧
      TranscriptListInv [tw 2 0 7] ∧
      TranscriptListInv
        (processFlush false 50 (BufferState.mk [(1, tw 1 0 4)] 0) [tw 2 0 7]).2 :=
  ⟨⟨by decide, by decide⟩, by decide,
   processFlush_preserves_inv false 50 _ _ ⟨by decide, by decide⟩ (by decide)⟩

/-- Fragment already in the list in the C3 counterexample. -/
def ta : Transcript :=
  { idTime := 1, idCounter := 0, text := "a", timestamp := "x", sequence_id := 1,
    chunk_start_time := 0, is_partial := false }

/-- Update fed to `addTranscript` in the C3 counterexample: same
sequence id as `ta` but different text and timestamp, so the
text/timestamp duplicate check does not fire. -/
def ub : TranscriptUpdate :=
  { text := "b", timestamp := "y", sequence_id := 1, chunk_start_time := 0,
    is_partial := false }

/-- The fragment `addTranscript` builds from `ub`. -/
def tb : Transcript :=
  { idTime := 1, idCounter := 0, text := "b", timestamp := "y", sequence_id := 1,
    chunk_start_time := 0, is_partial := false }

theorem addTranscript_ub : addTranscript 5 ub [ta] = [ta, tb] := by
  have h1 : ([ta].any (fun t => t.text == ub.text && t.timestamp == ub.timestamp)) = false := by
    decide
  simp only [addTranscript, h1, Bool.false_eq_true, if_false]
  rw [List.mergeSort_of_sorted (by decide)]
  decide

/-- Counterexample to claim C3 as stated: `[ta]` satisfies the
TranscriptList invariant, yet `addTranscript` applied to an update
carrying the already-present sequence id 1 (with different text and
timestamp) produces a list with a duplicated sequence id — the public
`addTranscript` operation does not preserve the invariant. -/
theorem addTranscript_breaks_inv :
    TranscriptListInv [ta] ∧ ¬ TranscriptListInv (addTranscript 5 ub [ta]) := by
  constructor
  · exact ⟨by decide, by decide⟩
  · rw [addTranscript_ub]
    intro hinv
    have := hinv.2
    simp [ta, tb] at this

/-- Witness for C10: a concrete buffer holding fragment 5 (arrived at
time 0, flushed at time 50) satisfies the age hypothesis, and the
non-forced flush leaves the buffer empty. -/
theorem flush_nonforce_empties_buffer_witness :
    (∀ p ∈ (BufferState.mk [(5, tw 5 0 0)] 0).buffer, p.2.idTime ≤ 50) ∧
      ((flush false 50 (BufferState.mk [(5, tw 5 0 0)] 0)).2).buffer = [] :=
  ⟨by decide, flush_nonforce_empties_buffer 50 _ (by decide)⟩

/- ### Claim C6: the stale classification boundary -/

theorem classifyLoop_stale_mem (now : Nat) (buf : List (Nat × Transcript))
    {sid : Nat} {t : Transcript} (hmem : (sid, t) ∈ buf)
    (hage : ((now : Int) - (t.idTime : Int)) > 100) :
    t ∈ (classifyLoop false now buf).1 := by
  induction buf with
  | nil => simp at hmem
  | cons p rest ih =>
    obtain ⟨sid', t'⟩ := p
    rcases List.mem_cons.mp hmem with heq | htail
    · obtain ⟨rfl, rfl⟩ := Prod.mk.injEq .. ▸ heq
      rw [classifyLoop_cons_stale sid rest hage]
      exact List.mem_cons_self _ _
    · by_cases hgt : ((now : Int) - (t'.idTime : Int)) > 100
      · rw [classifyLoop_cons_stale sid' rest hgt]
        exact List.mem_cons_of_mem _ (ih htail)
      · by_cases hge : ((now : Int) - (t'.idTime : Int)) ≥ 0
        · rw [classifyLoop_cons_recent sid' rest hgt hge]
          exact ih htail
        · rw [classifyLoop_cons_young sid' rest hgt hge]
          exact ih htail

/-- Counterexample to claim C6 as stated: a fragment whose age is
exactly the 100ms stale threshold (thus "greater than or equal to" it)
remains after the contiguous run but is classified recent, not stale —
the source compares the age with `>` rather than `≥`. -/
theorem stale_boundary_counterexample :
    (2, tw 2 0 0) ∈
      (contiguousRun (BufferState.mk [(2, tw 2 0 0)] 0).buffer
        (BufferState.mk [(2, tw 2 0 0)] 0).lastProcessedSequence).2.1 ∧
    ((100 : Int) - ((tw 2 0 0).idTime : Int)) ≥ 100 ∧
    (flushParts false 100 (BufferState.mk [(2, tw 2 0 0)] 0)).stale = [] ∧
    (flushParts false 100 (BufferState.mk [(2, tw 2 0 0)] 0)).recent = [tw 2 0 0] := by
  have hget : bufGet [(2, tw 2 0 0)] 1 = none := by decide
  have hc := @contiguousRun_of_none [(2, tw 2 0 0)] 0 hget
  refine ⟨?_, by decide, ?_, ?_⟩
  · rw [hc]; exact List.mem_singleton.mpr rfl
  · have h1 : ¬ ((100 : Int) - (((tw 2 0 0).idTime : Nat) : Int)) > 100 := by decide
    have h2 : ((100 : Int) - (((tw 2 0 0).idTime : Nat) : Int)) ≥ 0 := by decide
    simp [flushParts, hc, classifyLoop_cons_recent 2 [] h1 h2, classifyLoop,
      sortTranscripts]
  · have h1 : ¬ ((100 : Int) - (((tw 2 0 0).idTime : Nat) : Int)) > 100 := by decide
    have h2 : ((100 : Int) - (((tw 2 0 0).idTime : Nat) : Int)) ≥ 0 := by decide
    simp [flushParts, hc, classifyLoop_cons_recent 2 [] h1 h2, classifyLoop,
      sortTranscripts]

/-- Amended claim C6: in `flush(false)`, every fragment remaining after
the contiguous run whose age is strictly greater than the 100ms stale
threshold is classified stale; and in the concrete scenario where only
sequence id 5 is buffered (ids 1–4 never arrived) with age exceeding
100ms, the non-forced flush returns exactly that fragment, classified
stale, with `lastProcessedSequence` left at 0. -/
theorem stale_classification_amended :
    (∀ (now : Nat) (st : BufferState) (sid : Nat) (t : Transcript),
        (sid, t) ∈ (contiguousRun st.buffer st.lastProcessedSequence).2.1 →
        ((now : Int) - (t.idTime : Int)) > 100 →
        t ∈ (flushParts false now st).stale) ∧
    (∀ (now : Nat) (t : Transcript), ((now : Int) - (t.idTime : Int)) > 100 →
        flushParts false now (BufferState.mk [(5, t)] 0) =
          { contiguous := [], recent := [], stale := [t], forced := [],
            newBuffer := [], newLastProcessedSequence := 0 } ∧
        flush false now (BufferState.mk [(5, t)] 0) = ([t], BufferState.mk [] 0)) := by
  constructor
  · intro now st sid t hmem hage
    have : t ∈ (classifyLoop false now
        (contiguousRun st.buffer st.lastProcessedSequence).2.1).1 :=
      classifyLoop_stale_mem now _ hmem hage
    simpa [flushParts, sortTranscripts] using this
  · intro now t hage
    have hget : bufGet [(5, t)] 1 = none := rfl
    have hc := @contiguousRun_of_none [(5, t)] 0 hget
    have hcl := @classifyLoop_cons_stale now t 5 ([] : List (Nat × Transcript)) hage
    constructor
    · simp [flushParts, hc, hcl, classifyLoop, sortTranscripts]
    · simp [flush, flushParts, hc, hcl, classifyLoop, sortTranscripts]

/-- Witness for the amended C6: the buffered fragment with sequence
id 5 that arrived at time 0 and is flushed at time 150 has age
exceeding the threshold, and the theorem applies to it. -/
theorem stale_classification_amended_witness :
    (((150 : Int) - (((tw 5 0 0).idTime : Nat) : Int)) > 100) ∧
    flushParts false 150 (BufferState.mk [(5, tw 5 0 0)] 0) =
      { contiguous := [], recent := [], stale := [tw 5 0 0], forced := [],
        newBuffer := [], newLastProcessedSequence := 0 } ∧
    flush false 150 (BufferState.mk [(5, tw 5 0 0)] 0) = ([tw 5 0 0], BufferState.mk [] 0) :=
  ⟨by decide, (stale_classification_amended.2 150 (tw 5 0 0) (by decide)).1,
    (stale_classification_amended.2 150 (tw 5 0 0) (by decide)).2⟩

/- ### Session-layer claims -/

/-- Sample summary section for concrete states. -/
def sampleSection : SummarySection := { title := "s", blocks := [] }

/-- Sample structured summary returned by an `addChunk` response. -/
def sampleSummary : SummaryResponse :=
  { meeting_name := some "m", people := sampleSection, session_summary := sampleSection,
    critical_deadlines := sampleSection, key_items_decisions := sampleSection,
    immediate_action_items := sampleSection, next_steps := sampleSection }

/-- Pipeline state of a running meeting M1 with a non-trivial buffer,
pending chunk and transcript list. -/
def pipeM1 : PipelineState :=
  { currentMeetingId := some "M1", summaryStarted := true, summarySessionActive := true,
    pendingChunks := ["p"], incrementalSummary := none, transcripts := [ta],
    bufferState := ⟨[(7, tw 7 0 0)], 3⟩ }

/-- Counterexample to claim C1 as stated: after the pipeline switches
from meeting M1 to meeting M2, a settling `addChunk` response tagged
M1 still overwrites `incrementalSummary` — the continuation stores the
summary without comparing the response's meeting id with the current
one. -/
theorem stale_response_counterexample :
    (onRecordingStarted "M2" (clearTranscripts pipeM1)).currentMeetingId = some "M2" ∧
    ("M1" : String) ≠ "M2" ∧
    (applyAddChunkResponse "M1" sampleSummary
        (onRecordingStarted "M2" (clearTranscripts pipeM1))).incrementalSummary ≠
      (onRecordingStarted "M2" (clearTranscripts pipeM1)).incrementalSummary := by
  refine ⟨by decide, by decide, by decide⟩

/-- Amended claim C1: the `addChunk` success continuation applies the
returned summary unconditionally — for every pipeline state it stores
the response's summary as the new `incrementalSummary` (last applied
wins), regardless of whether the response's meeting id matches the
current one; no stale-response guard exists. -/
theorem applyAddChunkResponse_unconditional (responseMeetingId : String)
    (summary : SummaryResponse) (st : PipelineState) :
    (applyAddChunkResponse responseMeetingId summary st).incrementalSummary = some summary ∧
    (applyAddChunkResponse responseMeetingId summary st).currentMeetingId =
      st.currentMeetingId :=
  ⟨rfl, rfl⟩

/-- Counterexample to claim C4 as stated: the meeting switch (a
`clearTranscripts` followed by the recording-started handler) leaves
the fragment buffer and `lastProcessedSequence` untouched — with
`lastProcessedSequence = 3` and fragment 7 still buffered, both survive
the switch to M2. -/
theorem meeting_switch_counterexample :
    (onRecordingStarted "M2" (clearTranscripts pipeM1)).currentMeetingId = some "M2" ∧
    (onRecordingStarted "M2" (clearTranscripts pipeM1)).bufferState = pipeM1.bufferState ∧
    (onRecordingStarted "M2" (clearTranscripts pipeM1)).bufferState.buffer ≠ [] ∧
    (onRecordingStarted "M2" (clearTranscripts pipeM1)).bufferState.lastProcessedSequence
      ≠ 0 := by
  refine ⟨by decide, by decide, by decide, by decide⟩

/-- Amended claim C4: for every meeting switch, the switch resets the
session fields (new meeting id, session inactive, empty pending queue)
and empties the transcript list and summary, but the fragment buffer
and `lastProcessedSequence` are left exactly as they were — the
buffering closure's state is never reset. -/
theorem meeting_switch_amended (st : PipelineState) (newMeetingId : String) :
    (onRecordingStarted newMeetingId (clearTranscripts st)).currentMeetingId =
        some newMeetingId ∧
    (onRecordingStarted newMeetingId (clearTranscripts st)).summarySessionActive = false ∧
    (onRecordingStarted newMeetingId (clearTranscripts st)).pendingChunks = [] ∧
    (onRecordingStarted newMeetingId (clearTranscripts st)).transcripts = [] ∧
    (onRecordingStarted newMeetingId (clearTranscripts st)).incrementalSummary = none ∧
    (onRecordingStarted newMeetingId (clearTranscripts st)).bufferState = st.bufferState := by
  simp [onRecordingStarted, clearTranscripts]

/-- Counterexample to claim C7 as stated: the recording-stopped handler
(here with a failing `end` call) issues `end(M1)` and swallows the
failure, but does not set the session inactive and does not clear
`pendingChunks`. -/
theorem stop_handler_counterexample :
    (onRecordingStopped false pipeM1).1.summarySessionActive = true ∧
    (onRecordingStopped false pipeM1).1.pendingChunks = ["p"] ∧
    (onRecordingStopped false pipeM1).2 = [SummaryCall.endSession "M1"] := by
  refine ⟨by decide, by decide, by decide⟩

/-- Amended claim C7: the recording-stopped handler issues
`end(meetingId)` when a meeting id is present and swallows an `end`
failure (its state effects are identical whether the call succeeds or
fails); it leaves the whole pipeline state — in particular
`summarySessionActive` and `pendingChunks` — unchanged; those fields
are only reset by the next recording-started handler. -/
theorem stop_handler_amended (st : PipelineState) (endOk : Bool) :
    onRecordingStopped endOk st = onRecordingStopped true st ∧
    (onRecordingStopped endOk st).1 = st ∧
    (onRecordingStopped endOk st).2 =
      (match st.currentMeetingId with
       | none => []
       | some meetingId => [SummaryCall.endSession meetingId]) := by
  refine ⟨rfl, ?_, ?_⟩ <;>
    cases hc : st.currentMeetingId <;> simp [onRecordingStopped, hc]

/- ### Claim C5: one backlog addChunk call on activation -/

theorem runEvents_append (es1 es2 : List PEvent) :
    ∀ st : PipelineState,
      runEvents st (es1 ++ es2) =
        ((runEvents (runEvents st es1).1 es2).1,
         (runEvents st es1).2 ++ (runEvents (runEvents st es1).1 es2).2) := by
  induction es1 with
  | nil => intro st; simp [runEvents]
  | cons e rest ih =>
    intro st
    simp only [List.cons_append, runEvents, List.append_eq]
    rw [ih]
    simp [List.append_assoc]

theorem runEvents_chunks_starting (mid : String) (cs : List String) :
    ∀ st : PipelineState, st.currentMeetingId = some mid →
      st.summarySessionActive = false →
      runEvents st (cs.map PEvent.chunk) =
        ({ st with pendingChunks := st.pendingChunks ++ cs }, []) := by
  induction cs with
  | nil =>
    intro st h1 h2
    simp [runEvents]
  | cons c rest ih =>
    intro st h1 h2
    have hd : dispatchChunk c st =
        ({ st with pendingChunks := st.pendingChunks ++ [c] }, []) := by
      simp [dispatchChunk, h1, h2]
    simp only [List.map_cons, runEvents, hd]
    rw [ih _ (by simp [h1]) (by simp [h2])]
    simp

theorem runEvents_chunks_active (mid : String) (ds : List String) :
    ∀ st : PipelineState, st.currentMeetingId = some mid →
      st.summarySessionActive = true →
      runEvents st (ds.map PEvent.chunk) = (st, ds.map (SummaryCall.addChunk mid)) := by
  induction ds with
  | nil =>
    intro st h1 h2
    simp [runEvents]
  | cons d rest ih =>
    intro st h1 h2
    have hd : dispatchChunk d st = (st, [SummaryCall.addChunk mid d]) := by
      simp [dispatchChunk, h1, h2]
    simp only [List.map_cons, runEvents, hd]
    rw [ih _ h1 h2]
    simp

/-- Claim C5: for chunks forwarded while the session is still starting,
activation issues exactly one backlog `addChunk` call, carrying the
pending chunks joined with single spaces in arrival order, before the
call of any chunk produced after activation; with no pending chunks no
backlog call is issued. -/
theorem backlog_single_addChunk (mid : String) (cs ds : List String)
    (st : PipelineState) (h1 : st.currentMeetingId = some mid)
    (h2 : st.summarySessionActive = false) (h3 : st.pendingChunks = []) :
    (runEvents st
        (cs.map PEvent.chunk ++ [PEvent.startSuccess mid] ++ ds.map PEvent.chunk)).2 =
      (if cs.isEmpty then [] else
        [SummaryCall.addChunk mid (String.intercalate " " cs)]) ++
        ds.map (SummaryCall.addChunk mid) := by
  rw [runEvents_append, runEvents_append]
  rw [runEvents_chunks_starting mid cs st h1 h2]
  set st1 : PipelineState := { st with pendingChunks := st.pendingChunks ++ cs } with hst1
  have hst1p : st1.pendingChunks = cs := by simp [hst1, h3]
  by_cases hcs : cs.isEmpty
  · have hcs' : cs = [] := List.isEmpty_iff.mp hcs
    subst hcs'
    have hstart : onStartSuccess mid st1 = ({ st1 with summarySessionActive := true }, []) := by
      simp [onStartSuccess, hst1p, h3]
    simp only [runEvents, hstart]
    rw [runEvents_chunks_active mid ds _ (by simp [hst1, h1]) (by simp)]
    simp
  · have hlen : st1.pendingChunks.length > 0 := by
      rw [hst1p]
      cases cs with
      | nil => simp at hcs
      | cons a l => simp
    have hstart : onStartSuccess mid st1 =
        ({ st1 with summarySessionActive := true, pendingChunks := [] },
         [SummaryCall.addChunk mid (String.intercalate " " st1.pendingChunks)]) := by
      have hne : cs ≠ [] := by simpa [List.isEmpty_iff] using hcs
      simp [onStartSuccess, h3, hne, List.length_pos]
    simp only [runEvents, hstart]
    rw [runEvents_chunks_active mid ds _ (by simp [hst1, h1]) (by simp)]
    simp [hcs, hst1p, h3, List.isEmpty_iff]

/-- Witness for C5: with chunks "a", "b", "c" forwarded while starting
and chunk "d" produced after activation, the call sequence is exactly
one backlog call `addChunk(M1, "a b c")` followed by `addChunk(M1,
"d")`. -/
theorem backlog_single_addChunk_witness :
    (onRecordingStarted "M1" (clearTranscripts pipeM1)).currentMeetingId = some "M1" ∧
    (onRecordingStarted "M1" (clearTranscripts pipeM1)).summarySessionActive = false ∧
    (onRecordingStarted "M1" (clearTranscripts pipeM1)).pendingChunks = [] ∧
    (runEvents (onRecordingStarted "M1" (clearTranscripts pipeM1))
        (["a", "b", "c"].map PEvent.chunk ++ [PEvent.startSuccess "M1"] ++
          ["d"].map PEvent.chunk)).2 =
      (if (["a", "b", "c"] : List String).isEmpty then [] else
        [SummaryCall.addChunk "M1" (String.intercalate " " ["a", "b", "c"])]) ++
        ["d"].map (SummaryCall.addChunk "M1") :=
  ⟨by decide, by decide, by decide,
   backlog_single_addChunk "M1" ["a", "b", "c"] ["d"] _ (by decide) (by decide) (by decide)⟩

end MeetingMinutes
